import Mathlib

/-!
Shallow embedding of the Frontier SQL log indexer, translated from
client/db/src/sql/mod.rs (the sqlite-backed eth-log-indexer backend).

Modelling conventions:
* raw byte strings (block hashes, addresses, topics) are lists of naturals;
* the sqlite tables are lists of row structures scanned in storage order;
* machine integers are Nat/Int with the 32-bit casts made explicit;
* fallible SQL statements return Except, where an error means the statement
  (or the surrounding transaction) had no effect on the persisted state.
-/

/-- Raw byte strings: block hashes, addresses and topics are byte blobs. -/
abbrev Bytes := List Nat

/-- The all-zero 32-byte value, H256::zero() in the source, used to pad missing topics. -/
def zeroH256 : Bytes := List.replicate 32 0

/-- One row of the logs table, the Log struct of the source (mod.rs lines 34-45).
The id INTEGER PRIMARY KEY rowid column is implicit in the list position. -/
structure Log where
  block_number : Int
  address : Bytes
  topic_1 : Bytes
  topic_2 : Bytes
  topic_3 : Bytes
  topic_4 : Bytes
  log_index : Int
  transaction_index : Int
  substrate_block_hash : Bytes
  deriving DecidableEq, Repr

/-- Natural key of a logs row, the UNIQUE (log_index, transaction_index,
substrate_block_hash) constraint of the DDL (mod.rs lines 313-317). -/
def natKey (l : Log) : Int × Int × Bytes :=
  (l.log_index, l.transaction_index, l.substrate_block_hash)

/-- One row of the sync_status table: a substrate block hash (UNIQUE, mod.rs lines
323-325) and a status column with 0 = Pending, 1 = Indexed (DEFAULT 0 NOT NULL). -/
structure SyncRow where
  hash : Bytes
  status : Nat
  deriving DecidableEq, Repr

/-- Errors an embedded SQL statement can report. -/
inductive SqlError where
  | emptyValues
  | uniqueViolation
  deriving DecidableEq, Repr

/-- True when the list repeats an element. -/
def hasDup : List Bytes → Bool
  | [] => false
  | h :: t => t.contains h || hasDup t

/-- Status of the sync_status row with the given hash: scan the table in storage
order and report the status of the first (with the UNIQUE constraint, only) match. -/
def syncLookup (tbl : List SyncRow) (h : Bytes) : Option Nat :=
  (tbl.find? (fun r => r.hash == h)).map SyncRow.status

/-- Embeds insert_sync_status (mod.rs lines 99-107).  The source builds
INSERT INTO sync_status(substrate_block_hash) VALUES (h1),(h2),... with
QueryBuilder::push_values and executes it.  Two facts of the generated SQL are part
of the model: with an empty hashes list push_values emits no VALUES tuple, so sqlite
rejects the statement as a syntax error; and the statement is a plain INSERT with no
OR IGNORE / ON CONFLICT clause, so a hash already present in the table (UNIQUE
constraint on substrate_block_hash) or repeated inside the list aborts the whole
statement, which then inserts nothing.  Inserted rows take the declared default
status 0, Pending. -/
def insert_sync_status (hashes : List Bytes) (tbl : List SyncRow) :
    Except SqlError (List SyncRow) :=
  if hashes.isEmpty then .error .emptyValues
  else if hashes.any (fun h => tbl.any (fun r => r.hash == h)) || hasDup hashes then
    .error .uniqueViolation
  else .ok (tbl ++ hashes.map (fun h => ⟨h, 0⟩))

/-- Version tag of the on-chain ethereum storage encoding, the EthereumStorageSchema
enum of fp_storage; Undefined is the fallback tag. -/
inductive EthereumStorageSchema where
  | Undefined
  | V1
  | V2
  | V3
  deriving DecidableEq, Repr

/-- SCALE decoding of EthereumStorageSchema from a raw storage value: the first byte is
the variant index, anything else fails to decode (the Decode::decode(..).ok() call in
mod.rs line 292). -/
def decodeSchema : Bytes → Option EthereumStorageSchema
  | 0 :: _ => some .Undefined
  | 1 :: _ => some .V1
  | 2 :: _ => some .V2
  | 3 :: _ => some .V3
  | _ => none

/-- Result of client.storage(at, PALLET_ETHEREUM_SCHEMA): a read error, a missing
value, or the raw bytes stored in the slot. -/
inductive StorageResult where
  | err
  | okNone
  | okSome (bytes : Bytes)
  deriving DecidableEq, Repr

/-- An ethereum event log inside a receipt: emitting address and topic list. -/
structure EthLog where
  address : Bytes
  topics : List Bytes
  deriving DecidableEq, Repr

/-- Model of ethereum::ReceiptV3: three encodings whose receipt data all carry a logs
field, the only field the indexer reads (mod.rs lines 235-239). -/
inductive ReceiptV3 where
  | Legacy (logs : List EthLog)
  | EIP2930 (logs : List EthLog)
  | EIP1559 (logs : List EthLog)
  deriving DecidableEq, Repr

/-- The match of mod.rs lines 235-239 extracting d.logs from any receipt variant. -/
def receiptLogs : ReceiptV3 → List EthLog
  | .Legacy l => l
  | .EIP2930 l => l
  | .EIP1559 l => l

/-- A schema-specific receipt decoding strategy: current_receipts returns none when the
read fails or the block is absent; the caller turns that into no receipts with
unwrap_or_default (mod.rs line 232). -/
structure Handler where
  current_receipts : Bytes → Option (List ReceiptV3)

/-- The ledger-client facilities the indexer uses: HeaderBackend::number, with
Err(_) and Ok(None) collapsed to none because the source treats them identically
(the if-let on Ok(Some(..)) in mod.rs line 215), and StorageProvider::storage at the
PALLET_ETHEREUM_SCHEMA key, keyed by block hash. -/
structure LedgerClient where
  number : Bytes → Option Nat
  storage : Bytes → StorageResult

/-- The OverrideHandle: a registry of decoding strategies per schema version plus the
designated fallback strategy. -/
structure OverrideHandle where
  schemas : List (EthereumStorageSchema × Handler)
  fallback : Handler

/-- Map lookup in the handler registry, overrides.schemas.get(schema). -/
def lookupHandler (schemas : List (EthereumStorageSchema × Handler))
    (schema : EthereumStorageSchema) : Option Handler :=
  (schemas.find? (fun p => p.1 == schema)).map Prod.snd

/-- Embeds onchain_storage_schema (mod.rs lines 279-297): read the
PALLET_ETHEREUM_SCHEMA slot at the given block; read errors, missing values and decode
failures all degrade to Undefined. -/
def onchain_storage_schema (client : LedgerClient) (blockHash : Bytes) :
    EthereumStorageSchema :=
  match client.storage blockHash with
  | .okSome bytes => (decodeSchema bytes).getD .Undefined
  | _ => .Undefined

/-- Reinterpretation of an unsigned 32-bit value as a signed 32-bit integer, the Rust
cast u32 as i32. -/
def i32ofU32 (n : Nat) : Int :=
  if n % 2 ^ 32 < 2 ^ 31 then ((n % 2 ^ 32 : Nat) : Int)
  else ((n % 2 ^ 32 : Nat) : Int) - 2 ^ 32

/-- Saturating conversion of the (unsigned) native chain height into u32, the
UniqueSaturatedInto call of mod.rs line 216. -/
def u32saturate (n : Nat) : Nat := min n (2 ^ 32 - 1)

/-- The block number stored with each log record (mod.rs line 216):
UniqueSaturatedInto into u32 followed by the cast as i32. -/
def blockNumberOf (n : Nat) : Int := i32ofU32 (u32saturate n)

/-- The Rust cast usize as i32 applied to the enumerate indices (mod.rs lines 240
and 269): truncation to the low 32 bits reinterpreted as signed. -/
def usizeAsI32 (n : Nat) : Int := i32ofU32 n

/-- The log records pushed for one receipt: the inner loop of spawn_logs_task_inner
(mod.rs lines 241-273), one record per log entry of the receipt in emission order,
topics padded with the all-zero value when missing. -/
def receiptRecords (bn : Int) (blockHash : Bytes) (ti : Nat) (r : ReceiptV3) :
    List Log :=
  (receiptLogs r).enum.map (fun p =>
    { block_number := bn
      address := p.2.address
      topic_1 := (p.2.topics.get? 0).getD zeroH256
      topic_2 := (p.2.topics.get? 1).getD zeroH256
      topic_3 := (p.2.topics.get? 2).getD zeroH256
      topic_4 := (p.2.topics.get? 3).getD zeroH256
      log_index := usizeAsI32 p.1
      transaction_index := usizeAsI32 ti
      substrate_block_hash := blockHash })

/-- The log records pushed for one block hash: the body of the per-hash loop of
spawn_logs_task_inner (mod.rs lines 213-275): resolve the height (0 when
unresolvable), resolve the schema, select the handler with fallback, fetch receipts
(empty on failure), then push one record per receipt log. -/
def extractBlock (client : LedgerClient) (overrides : OverrideHandle)
    (blockHash : Bytes) : List Log :=
  let bn : Int :=
    match client.number blockHash with
    | some n => blockNumberOf n
    | none => 0
  let schema := onchain_storage_schema client blockHash
  let handler := (lookupHandler overrides.schemas schema).getD overrides.fallback
  let receipts := (handler.current_receipts blockHash).getD []
  receipts.enum.foldl (fun acc p => acc ++ receiptRecords bn blockHash p.1 p.2) []

/-- Embeds spawn_logs_task_inner (mod.rs lines 202-277): fold the per-block extraction
over the whole batch, accumulating all records into one list. -/
def spawn_logs_task_inner (client : LedgerClient) (overrides : OverrideHandle)
    (hashes : List Bytes) : List Log :=
  hashes.foldl (fun acc h => acc ++ extractBlock client overrides h) []

/-- Specification-shaped per-block extraction, following the words of the claim about
record shape: one record per log entry, receipts in transaction order and logs in
emission order, transaction_index the exact zero-based receipt position, log_index the
exact zero-based log position, source hash the input block hash, topics 1..4 from the
topic list padded with the all-zero 32-byte value.  To be compared with extractBlock,
which is translated from the source and casts the positions through i32. -/
def extractBlockSpec (client : LedgerClient) (overrides : OverrideHandle)
    (blockHash : Bytes) : List Log :=
  let bn : Int :=
    match client.number blockHash with
    | some n => blockNumberOf n
    | none => 0
  let schema := onchain_storage_schema client blockHash
  let handler := (lookupHandler overrides.schemas schema).getD overrides.fallback
  let receipts := (handler.current_receipts blockHash).getD []
  receipts.enum.flatMap (fun tp =>
    (receiptLogs tp.2).enum.map (fun lp =>
      { block_number := bn
        address := lp.2.address
        topic_1 := (lp.2.topics.get? 0).getD zeroH256
        topic_2 := (lp.2.topics.get? 1).getD zeroH256
        topic_3 := (lp.2.topics.get? 2).getD zeroH256
        topic_4 := (lp.2.topics.get? 3).getD zeroH256
        log_index := (lp.1 : Int)
        transaction_index := (tp.1 : Int)
        substrate_block_hash := blockHash }))

/-- The batch claim of spawn_logs_task (mod.rs lines 129-151): one UPDATE statement
setting status to 1 on the rows whose hash lies in a subquery selecting up to
batch_size hashes with status 0 in storage order, RETURNING the updated hashes. -/
def claimBatch (batchSize : Nat) (tbl : List SyncRow) : List SyncRow × List Bytes :=
  let claimed := ((tbl.filter (fun r => r.status == 0)).take batchSize).map SyncRow.hash
  (tbl.map (fun r => if claimed.contains r.hash then ⟨r.hash, 1⟩ else r), claimed)

/-- One INSERT OR IGNORE INTO logs statement (mod.rs lines 161-184): the row is
discarded when a row with the same natural key is already present, otherwise appended. -/
def insertLogOrIgnore (tbl : List Log) (l : Log) : List Log :=
  if tbl.any (fun r => natKey r == natKey l) then tbl else tbl ++ [l]

/-- The insert loop of spawn_logs_task (mod.rs lines 160-185): INSERT OR IGNORE each
extracted record in order. -/
def insertLogs (tbl : List Log) (ls : List Log) : List Log :=
  ls.foldl insertLogOrIgnore tbl

/-- Failure injection for one indexing cycle: the fallible steps of spawn_logs_task
are the claim query, the blocking-task handoff, each row insert (insertFailAt counts
inserts until the failing one), and the final commit. -/
structure Failures where
  claimFail : Bool
  handoffFail : Bool
  insertFailAt : Option Nat
  commitFail : Bool

/-- A cycle with no injected failure. -/
def noFailures : Failures := ⟨false, false, none, false⟩

/-- Error reported by a failed cycle step. -/
inductive CycleError where
  | claimError
  | handoffError
  | insertError
  | commitError
  deriving DecidableEq, Repr

/-- The persisted database state: the sync_status table and the logs table. -/
structure DB where
  sync : List SyncRow
  logs : List Log
  deriving DecidableEq, Repr

/-- The insert loop run inside the transaction with failure injection: inserts happen
one statement at a time and the loop aborts with an error at the injected point. -/
def insertLogsTx : Option Nat → List Log → List Log → Except CycleError (List Log)
  | _, tbl, [] => .ok tbl
  | some 0, _, _ :: _ => .error .insertError
  | some (n + 1), tbl, l :: ls => insertLogsTx (some n) (insertLogOrIgnore tbl l) ls
  | none, tbl, l :: ls => insertLogsTx none (insertLogOrIgnore tbl l) ls

/-- The transactional body of spawn_logs_task (mod.rs lines 118-189): claim a batch,
hand the hashes to the extraction worker, insert every returned record, then commit.
The computed state becomes visible only if every step succeeds. -/
def runCycleTx (f : Failures) (extract : List Bytes → List Log) (batchSize : Nat)
    (db : DB) : Except CycleError (DB × List Bytes) :=
  if f.claimFail then .error .claimError
  else
    let claim := claimBatch batchSize db.sync
    if f.handoffFail then .error .handoffError
    else
      match insertLogsTx f.insertFailAt db.logs (extract claim.2) with
      | .error e => .error e
      | .ok logs2 =>
        if f.commitFail then .error .commitError
        else .ok (⟨claim.1, logs2⟩, claim.2)

/-- One whole indexing cycle: on success the transaction commits and the new state is
published with the claimed hashes; on any failure the transaction is dropped without
commit, so the persisted state is unchanged (sqlite rollback). -/
def runCycle (f : Failures) (extract : List Bytes → List Log) (batchSize : Nat)
    (db : DB) : DB × Option (List Bytes) :=
  match runCycleTx f extract batchSize db with
  | .ok (db2, claimed) => (db2, some claimed)
  | .error _ => (db, none)

lemma hasDup_eq_false_iff_nodup (l : List Bytes) : hasDup l = false ↔ l.Nodup := by
  induction l with
  | nil => simp [hasDup]
  | cons h t ih =>
    simp only [hasDup, Bool.or_eq_false_iff, List.nodup_cons, ih]
    constructor
    · rintro ⟨hc, hn⟩
      refine ⟨fun hm => ?_, hn⟩
      have hel := List.elem_iff.mpr hm
      simp only [List.contains] at hc
      rw [hel] at hc
      cases hc
    · rintro ⟨hm, hn⟩
      refine ⟨?_, hn⟩
      by_contra hc
      rw [Bool.not_eq_false, List.contains_eq_any_beq, List.any_eq_true] at hc
      obtain ⟨x, hx, hbeq⟩ := hc
      exact hm ((beq_iff_eq.mp hbeq) ▸ hx)

lemma find?_map_hash_append (tbl : List SyncRow) (A : List Bytes) (h : Bytes)
    (hA : h ∈ A) (hfresh : ∀ r ∈ tbl, r.hash ≠ h) :
    ((tbl ++ A.map (fun x => (⟨x, 0⟩ : SyncRow))).find? (fun r => r.hash == h)) =
      some ⟨h, 0⟩ := by
  rw [List.find?_append]
  have h1 : tbl.find? (fun r => r.hash == h) = none := by
    rw [List.find?_eq_none]
    intro r hr
    simpa using hfresh r hr
  rw [h1]
  simp only [Option.none_or]
  induction A with
  | nil => cases hA
  | cons a t ih =>
    rcases List.mem_cons.mp hA with rfl | hA
    · simp [List.find?]
    · by_cases hcase : a = h
      · subst hcase; simp [List.find?]
      · simp only [List.map_cons, List.find?]
        have : ((⟨a, 0⟩ : SyncRow).hash == h) = false := by simpa using hcase
        rw [this]
        exact ih hA

/-- C10: calling insert_sync_status with an empty list of hashes does not succeed as a
no-op: the generated INSERT statement has an empty VALUES clause, so the call returns
an error and inserts nothing (the failed statement leaves the table unchanged). -/
theorem insert_sync_status_empty_errors (tbl : List SyncRow) :
    insert_sync_status [] tbl = .error .emptyValues := rfl

/-- C3 counterexample: over an empty table, inserting the hash set containing hash 1 and
then the overlapping set of hashes 1 and 2, the first call succeeds but the second
returns a unique-constraint error — re-inserting an already-present hash is an error,
not a silent no-op as the claim states. -/
theorem insert_sync_status_overlap_not_noop :
    insert_sync_status [[1]] [] = .ok [⟨[1], 0⟩] ∧
      insert_sync_status [[1], [2]] [⟨[1], 0⟩] = .error .uniqueViolation :=
  ⟨rfl, rfl⟩

/-- C3 amended: two insert_sync_status calls with overlapping hash sets do not both
succeed.  The first call, with a nonempty duplicate-free set of hashes that are not yet
in the table, succeeds and appends one Pending row per hash, keeping the hash column
duplicate-free; the second call, overlapping the first, fails with a unique-constraint
violation and inserts nothing, so no duplicate rows ever appear, but the overlap is
rejected with an error rather than ignored as a no-op. -/
theorem insert_sync_status_overlap_rejected (A B : List Bytes) (tbl : List SyncRow)
    (hne : A ≠ []) (hndA : A.Nodup) (hfresh : ∀ h ∈ A, ∀ r ∈ tbl, r.hash ≠ h)
    (hov : ∃ h, h ∈ A ∧ h ∈ B) (hnd : (tbl.map SyncRow.hash).Nodup) :
    insert_sync_status A tbl = .ok (tbl ++ A.map (fun h => (⟨h, 0⟩ : SyncRow))) ∧
      insert_sync_status B (tbl ++ A.map (fun h => (⟨h, 0⟩ : SyncRow))) = .error .uniqueViolation ∧
      ((tbl ++ A.map (fun h => (⟨h, 0⟩ : SyncRow))).map SyncRow.hash).Nodup ∧
      (∀ h ∈ A, syncLookup (tbl ++ A.map (fun h => (⟨h, 0⟩ : SyncRow))) h = some 0) := by
  obtain ⟨h0, hh0A, hh0B⟩ := hov
  have hAne : A.isEmpty = false := by
    cases A with
    | nil => exact absurd rfl hne
    | cons a t => rfl
  have hnodup : hasDup A = false := (hasDup_eq_false_iff_nodup A).mpr hndA
  have hany : A.any (fun h => tbl.any (fun r => r.hash == h)) = false := by
    rw [Bool.eq_false_iff]
    intro hc
    rw [List.any_eq_true] at hc
    obtain ⟨h, hhA, hc2⟩ := hc
    rw [List.any_eq_true] at hc2
    obtain ⟨r, hr, hbeq⟩ := hc2
    exact hfresh h hhA r hr (beq_iff_eq.mp hbeq)
  refine ⟨?_, ?_, ?_, ?_⟩
  · simp [insert_sync_status, hAne, hany, hnodup]
  · have hBne : B.isEmpty = false := by
      cases B with
      | nil => cases hh0B
      | cons b t => rfl
    have hanyB : B.any
        (fun h => (tbl ++ A.map (fun x => (⟨x, 0⟩ : SyncRow))).any
          (fun r => r.hash == h)) = true := by
      rw [List.any_eq_true]
      refine ⟨h0, hh0B, ?_⟩
      rw [List.any_eq_true]
      refine ⟨⟨h0, 0⟩, ?_, by simp⟩
      exact List.mem_append_right _ (List.mem_map_of_mem _ hh0A)
    have c1 : ¬ (B.isEmpty = true) := by rw [hBne]; exact Bool.false_ne_true
    have c2 : (B.any
        (fun h => (tbl ++ A.map (fun x => (⟨x, 0⟩ : SyncRow))).any
          (fun r => r.hash == h)) || hasDup B) = true := by
      rw [hanyB, Bool.true_or]
    unfold insert_sync_status
    rw [if_neg c1, if_pos c2]
  · rw [List.map_append, List.nodup_append]
    refine ⟨hnd, ?_, ?_⟩
    · have : (A.map (fun h => (⟨h, 0⟩ : SyncRow))).map SyncRow.hash = A := by
        simp [List.map_map, Function.comp_def]
      rw [this]; exact hndA
    · intro x hx
      have : (A.map (fun h => (⟨h, 0⟩ : SyncRow))).map SyncRow.hash = A := by
        simp [List.map_map, Function.comp_def]
      rw [this]
      rw [List.mem_map] at hx
      obtain ⟨r, hr, rfl⟩ := hx
      intro hxA
      exact hfresh r.hash hxA r hr rfl
  · intro h hhA
    unfold syncLookup
    rw [find?_map_hash_append tbl A h hhA (hfresh h hhA)]
    rfl

/-- Witness for the amended C3 theorem at concrete inputs. -/
theorem insert_sync_status_overlap_rejected_witness :
    insert_sync_status [[1]] [] = .ok [⟨[1], 0⟩] ∧
      insert_sync_status [[1], [2]] [⟨[1], 0⟩] = .error .uniqueViolation ∧
      (([(⟨[1], 0⟩ : SyncRow)]).map SyncRow.hash).Nodup ∧
      (∀ h ∈ [[1]], syncLookup [(⟨[1], 0⟩ : SyncRow)] h = some 0) := by
  have := insert_sync_status_overlap_rejected [[1]] [[1], [2]] []
    (by decide) (by decide) (by simp) ⟨[1], by decide, by decide⟩ (by decide)
  simpa using this

lemma i32ofU32_of_lt (n : Nat) (h : n < 2 ^ 31) : i32ofU32 n = (n : Int) := by
  unfold i32ofU32
  have hm : n % 2 ^ 32 = n := Nat.mod_eq_of_lt (by omega)
  rw [hm, if_pos h]

/-- C6: schema resolution degrades to the Undefined tag whenever the well-known storage
slot read errors, the slot is absent, or its bytes fail to decode — it never fails the
caller — and decoder selection for a version with no registered strategy returns the
designated fallback strategy. -/
theorem schema_resolution_degrades (client : LedgerClient) (h : Bytes)
    (overrides : OverrideHandle) (schema : EthereumStorageSchema) :
    (client.storage h = .err → onchain_storage_schema client h = .Undefined) ∧
      (client.storage h = .okNone → onchain_storage_schema client h = .Undefined) ∧
      (∀ bytes, client.storage h = .okSome bytes → decodeSchema bytes = none →
        onchain_storage_schema client h = .Undefined) ∧
      (lookupHandler overrides.schemas schema = none →
        (lookupHandler overrides.schemas schema).getD overrides.fallback =
          overrides.fallback) := by
  refine ⟨?_, ?_, ?_, ?_⟩
  · intro he; unfold onchain_storage_schema; rw [he]
  · intro he; unfold onchain_storage_schema; rw [he]
  · intro bytes he hd; unfold onchain_storage_schema; rw [he]; simp [hd]
  · intro he; rw [he]; rfl

/-- Witness for the C6 theorem: a concrete client whose storage read errors resolves to
Undefined, and lookup in an empty registry selects the given fallback handler. -/
theorem schema_resolution_degrades_witness :
    onchain_storage_schema ⟨fun _ => none, fun _ => .err⟩ [] = .Undefined ∧
      (lookupHandler [] .V1).getD (⟨fun _ => none⟩ : Handler) = ⟨fun _ => none⟩ :=
  ⟨(schema_resolution_degrades ⟨fun _ => none, fun _ => .err⟩ []
      ⟨[], ⟨fun _ => none⟩⟩ .V1).1 rfl,
    (schema_resolution_degrades ⟨fun _ => none, fun _ => .err⟩ []
      ⟨[], ⟨fun _ => none⟩⟩ .V1).2.2.2 rfl⟩

/-- C8 counterexample: the native height 2 ^ 31, well inside the u32 target range, is
stored as the negative block number -(2 ^ 31): the i32 cast of the source wraps, so
block_number is not a non-negative saturating cast as the claim states. -/
theorem blockNumber_cast_negative :
    blockNumberOf (2 ^ 31) = -(2 ^ 31 : Int) ∧ blockNumberOf (2 ^ 31) < 0 := by
  constructor <;> decide

/-- C8 amended: block_number is the native height saturated into the unsigned 32-bit
range and then reinterpreted as a signed 32-bit integer: heights below 2 ^ 31 map to
themselves and are non-negative, heights from 2 ^ 31 upward map to negative values,
and heights at or above the u32 maximum saturate to that maximum, stored as -1. -/
theorem blockNumber_cast_amended (n : Nat) :
    (n < 2 ^ 31 → blockNumberOf n = (n : Int)) ∧
      (2 ^ 31 ≤ n →
        blockNumberOf n = ((min n (2 ^ 32 - 1) : Nat) : Int) - 2 ^ 32 ∧
          blockNumberOf n < 0) ∧
      (2 ^ 32 - 1 ≤ n → blockNumberOf n = -1) := by
  refine ⟨?_, ?_, ?_⟩
  · intro h
    unfold blockNumberOf u32saturate
    have hmin : min n (2 ^ 32 - 1) = n := by omega
    rw [hmin]
    exact i32ofU32_of_lt n h
  · intro h
    unfold blockNumberOf u32saturate i32ofU32
    have hlt : min n (2 ^ 32 - 1) < 2 ^ 32 := by omega
    have hm : min n (2 ^ 32 - 1) % 2 ^ 32 = min n (2 ^ 32 - 1) := Nat.mod_eq_of_lt hlt
    rw [hm]
    have hge : ¬ (min n (2 ^ 32 - 1) < 2 ^ 31) := by omega
    rw [if_neg hge]
    refine ⟨rfl, ?_⟩
    have hcast : ((min n (2 ^ 32 - 1) : Nat) : Int) < 2 ^ 32 := by exact_mod_cast hlt
    omega
  · intro h
    unfold blockNumberOf u32saturate
    have hmin : min n (2 ^ 32 - 1) = 2 ^ 32 - 1 := by omega
    rw [hmin]
    decide

/-- Witness for the amended C8 theorem at concrete heights on both sides of the wrap
boundary and beyond the saturation point. -/
theorem blockNumber_cast_amended_witness :
    blockNumberOf 5 = 5 ∧ blockNumberOf (2 ^ 31) < 0 ∧ blockNumberOf (2 ^ 32) = -1 :=
  ⟨(blockNumber_cast_amended 5).1 (by decide),
    ((blockNumber_cast_amended (2 ^ 31)).2.1 (by decide)).2,
    (blockNumber_cast_amended (2 ^ 32)).2.2 (by decide)⟩

lemma foldl_append_eq_flatMap {α β : Type} (f : α → List β) :
    ∀ (l : List α) (acc : List β),
      l.foldl (fun a x => a ++ f x) acc = acc ++ l.flatMap f
  | [], acc => by simp
  | x :: t, acc => by
    rw [List.foldl_cons, List.flatMap_cons, foldl_append_eq_flatMap f t (acc ++ f x),
      List.append_assoc]

lemma flatMap_congr_mem {α β : Type} {f g : α → List β} :
    ∀ (l : List α), (∀ a ∈ l, f a = g a) → l.flatMap f = l.flatMap g
  | [], _ => rfl
  | x :: t, h => by
    rw [List.flatMap_cons, List.flatMap_cons, h x (List.mem_cons_self x t),
      flatMap_congr_mem t (fun a ha => h a (List.mem_cons_of_mem _ ha))]

lemma mem_enum_bounds {α : Type} {l : List α} {i : Nat} {x : α}
    (h : (i, x) ∈ l.enum) : i < l.length ∧ x ∈ l := by
  have hg := List.mem_enum_iff_getElem?.mp h
  exact ⟨(List.getElem?_eq_some.mp hg).1, List.getElem?_mem hg⟩

/-- C4: for every block hash, the per-block extraction emits one record per log entry,
iterating receipts in transaction order and logs in emission order, with
transaction_index the zero-based receipt position, log_index the zero-based log
position, source_block_hash the input hash, the log address, and topics 1..4 padded
with the all-zero 32-byte value when missing — stated as equality with the
specification-shaped extraction; the bounds on the receipt and log counts keep the
i32 position casts of the source exact. -/
theorem extractBlock_matches_spec (client : LedgerClient) (overrides : OverrideHandle)
    (blockHash : Bytes)
    (hlen : ((((lookupHandler overrides.schemas
        (onchain_storage_schema client blockHash)).getD
          overrides.fallback).current_receipts blockHash).getD []).length ≤ 2 ^ 31)
    (hlogs : ∀ r ∈ (((lookupHandler overrides.schemas
        (onchain_storage_schema client blockHash)).getD
          overrides.fallback).current_receipts blockHash).getD [],
        (receiptLogs r).length ≤ 2 ^ 31) :
    extractBlock client overrides blockHash =
      extractBlockSpec client overrides blockHash := by
  unfold extractBlock extractBlockSpec
  rw [foldl_append_eq_flatMap, List.nil_append]
  apply flatMap_congr_mem
  intro tp htp
  obtain ⟨ti, r⟩ := tp
  obtain ⟨hti, hr⟩ := mem_enum_bounds htp
  unfold receiptRecords
  apply List.map_congr_left
  intro lp hlp
  obtain ⟨li, lg⟩ := lp
  obtain ⟨hli, _⟩ := mem_enum_bounds hlp
  have h1 : usizeAsI32 li = (li : Int) := by
    unfold usizeAsI32
    exact i32ofU32_of_lt li (Nat.lt_of_lt_of_le hli (hlogs r hr))
  have h2 : usizeAsI32 ti = (ti : Int) := by
    unfold usizeAsI32
    exact i32ofU32_of_lt ti (Nat.lt_of_lt_of_le hti hlen)
  rw [h1, h2]

/-- Witness for the C4 theorem: a concrete block with one legacy receipt carrying one
log with a single topic; both extraction forms agree. -/
theorem extractBlock_matches_spec_witness :
    extractBlock ⟨fun _ => some 7, fun _ => .err⟩
        ⟨[], ⟨fun _ => some [ReceiptV3.Legacy [⟨List.replicate 20 170,
          [List.replicate 32 17]⟩]]⟩⟩ [9] =
      extractBlockSpec ⟨fun _ => some 7, fun _ => .err⟩
        ⟨[], ⟨fun _ => some [ReceiptV3.Legacy [⟨List.replicate 20 170,
          [List.replicate 32 17]⟩]]⟩⟩ [9] :=
  extractBlock_matches_spec ⟨fun _ => some 7, fun _ => .err⟩
    ⟨[], ⟨fun _ => some [ReceiptV3.Legacy [⟨List.replicate 20 170,
      [List.replicate 32 17]⟩]]⟩⟩ [9] (by decide) (by decide)

/-- C7: batch extraction is the concatenation of independent per-block extractions, so
one unresolvable block never aborts the rest of the batch, and when the height of a
block cannot be resolved via the ledger client its records are emitted with
block_number 0 while extraction of that block continues. -/
theorem extraction_missing_height_degrades (client : LedgerClient)
    (overrides : OverrideHandle) (hashes : List Bytes) (h : Bytes) :
    spawn_logs_task_inner client overrides hashes =
        hashes.flatMap (extractBlock client overrides) ∧
      (client.number h = none →
        ∀ rec ∈ extractBlock client overrides h, rec.block_number = 0) := by
  constructor
  · unfold spawn_logs_task_inner
    rw [foldl_append_eq_flatMap, List.nil_append]
  · intro hnone rec hrec
    unfold extractBlock at hrec
    rw [hnone] at hrec
    rw [foldl_append_eq_flatMap, List.nil_append] at hrec
    rw [List.mem_flatMap] at hrec
    obtain ⟨p, _, hrec⟩ := hrec
    unfold receiptRecords at hrec
    rw [List.mem_map] at hrec
    obtain ⟨lp, _, rfl⟩ := hrec
    rfl

/-- Witness for the C7 theorem: with a client that resolves no heights, the concrete
record extracted for a block still appears and carries block_number 0. -/
theorem extraction_missing_height_degrades_witness :
    (⟨0, [170], [17], zeroH256, zeroH256, zeroH256, 0, 0, [9]⟩ : Log).block_number
      = 0 :=
  (extraction_missing_height_degrades ⟨fun _ => none, fun _ => .err⟩
      ⟨[], ⟨fun _ => some [ReceiptV3.Legacy [⟨[170], [[17]]⟩]]⟩⟩ [] [9]).2 rfl
    ⟨0, [170], [17], zeroH256, zeroH256, zeroH256, 0, 0, [9]⟩ (by decide)

lemma claim_mem_hash (batchSize : Nat) (tbl : List SyncRow) (h : Bytes)
    (hm : h ∈ (claimBatch batchSize tbl).2) :
    ∃ r ∈ tbl, r.hash = h ∧ r.status = 0 := by
  unfold claimBatch at hm
  simp only at hm
  rw [List.mem_map] at hm
  obtain ⟨r, hr, rfl⟩ := hm
  have hr2 : r ∈ tbl.filter (fun r => r.status == 0) := List.take_subset _ _ hr
  rw [List.mem_filter] at hr2
  exact ⟨r, hr2.1, rfl, by simpa using hr2.2⟩

lemma find?_hash_of_nodup (tbl : List SyncRow) (r : SyncRow)
    (hnd : (tbl.map SyncRow.hash).Nodup) (hr : r ∈ tbl) :
    tbl.find? (fun x => x.hash == r.hash) = some r := by
  induction tbl with
  | nil => cases hr
  | cons x t ih =>
    rw [List.map_cons, List.nodup_cons] at hnd
    rcases List.mem_cons.mp hr with rfl | hr2
    · exact List.find?_cons_of_pos t (by simp)
    · have hne : ¬ (x.hash == r.hash) = true := by
        rw [beq_iff_eq]
        intro hEq
        exact hnd.1 (hEq ▸ List.mem_map_of_mem SyncRow.hash hr2)
      rw [List.find?_cons_of_neg t hne]
      exact ih hnd.2 hr2

lemma claimBatch_lookup (batchSize : Nat) (tbl : List SyncRow) (h : Bytes) :
    syncLookup (claimBatch batchSize tbl).1 h =
      if (claimBatch batchSize tbl).2.contains h then some 1
      else syncLookup tbl h := by
  unfold claimBatch syncLookup
  simp only []
  set claimed :=
    ((tbl.filter (fun r => r.status == 0)).take batchSize).map SyncRow.hash with hcl
  rw [List.find?_map]
  have hpf : ((fun r : SyncRow => r.hash == h) ∘
      (fun r : SyncRow =>
        if claimed.contains r.hash then (⟨r.hash, 1⟩ : SyncRow) else r)) =
      (fun r : SyncRow => r.hash == h) := by
    funext r
    by_cases hc : r.hash ∈ claimed <;> simp [Function.comp, hc]
  rw [hpf]
  cases hfind : tbl.find? (fun r => r.hash == h) with
  | none =>
    have hnc : claimed.contains h = false := by
      rw [Bool.eq_false_iff]
      intro hc
      have hmem : h ∈ claimed := List.elem_iff.mp hc
      rw [hcl, List.mem_map] at hmem
      obtain ⟨r, hr, rfl⟩ := hmem
      have hrt : r ∈ tbl := List.mem_of_mem_filter (List.take_subset _ _ hr)
      rw [List.find?_eq_none] at hfind
      exact hfind r hrt (by simp)
    rw [hnc]
    simp
  | some r =>
    have hhash : r.hash = h := by simpa using List.find?_some hfind
    simp only [Option.map_some']
    rw [apply_ite SyncRow.status, hhash]
    by_cases hc : h ∈ claimed <;> simp [hc]

lemma claimBatch_claimed_pending (batchSize : Nat) (tbl : List SyncRow) (h : Bytes)
    (hnd : (tbl.map SyncRow.hash).Nodup) (hm : h ∈ (claimBatch batchSize tbl).2) :
    syncLookup tbl h = some 0 := by
  obtain ⟨r, hr, rfl, hst⟩ := claim_mem_hash batchSize tbl h hm
  unfold syncLookup
  rw [find?_hash_of_nodup tbl r hnd hr]
  simp [hst]

lemma runCycleTx_ok (f : Failures) (extract : List Bytes → List Log) (n : Nat)
    (db : DB) (p : DB × List Bytes) (hok : runCycleTx f extract n db = .ok p) :
    p.1.sync = (claimBatch n db.sync).1 ∧ p.2 = (claimBatch n db.sync).2 := by
  simp only [runCycleTx] at hok
  rcases hins : insertLogsTx f.insertFailAt db.logs (extract (claimBatch n db.sync).2)
    with e | logs2
  · rw [hins] at hok
    split_ifs at hok
  · rw [hins] at hok
    split_ifs at hok
    all_goals (cases hok; try exact ⟨rfl, rfl⟩)

/-- C2: the batch claim selects at most batchSize rows, every row it updates had
status Pending and is set to Indexed, the returned hashes are exactly the updated
rows (a lookup changes precisely at the returned hashes), and no embedded operation —
the claim itself, a successful sync-status insert, or a whole cycle — ever moves a
row from Indexed back to Pending.  The claim runs as one UPDATE statement inside the
cycle transaction (see runCycleTx), so its single-transaction framing is structural. -/
theorem claimBatch_contract (batchSize : Nat) (tbl : List SyncRow)
    (hnd : (tbl.map SyncRow.hash).Nodup) :
    (claimBatch batchSize tbl).2.length ≤ batchSize ∧
      (∀ h ∈ (claimBatch batchSize tbl).2,
        syncLookup tbl h = some 0 ∧
          syncLookup (claimBatch batchSize tbl).1 h = some 1) ∧
      (∀ h, syncLookup (claimBatch batchSize tbl).1 h ≠ syncLookup tbl h ↔
        h ∈ (claimBatch batchSize tbl).2) ∧
      (∀ h, syncLookup tbl h = some 1 →
        syncLookup (claimBatch batchSize tbl).1 h = some 1) ∧
      (∀ hashes tbl2, insert_sync_status hashes tbl = .ok tbl2 →
        ∀ h, syncLookup tbl h = some 1 → syncLookup tbl2 h = some 1) ∧
      (∀ f extract db, db.sync = tbl →
        ∀ h, syncLookup tbl h = some 1 →
          syncLookup (runCycle f extract batchSize db).1.sync h = some 1) := by
  have hlen : (claimBatch batchSize tbl).2.length ≤ batchSize := by
    unfold claimBatch
    simp only [List.length_map, List.length_take]
    omega
  have hmem : ∀ h ∈ (claimBatch batchSize tbl).2,
      syncLookup tbl h = some 0 ∧
        syncLookup (claimBatch batchSize tbl).1 h = some 1 := by
    intro h hm
    refine ⟨claimBatch_claimed_pending batchSize tbl h hnd hm, ?_⟩
    have hc : (claimBatch batchSize tbl).2.contains h = true := List.elem_iff.mpr hm
    rw [claimBatch_lookup, if_pos hc]
  have hmono : ∀ h, syncLookup tbl h = some 1 →
      syncLookup (claimBatch batchSize tbl).1 h = some 1 := by
    intro h h1
    rw [claimBatch_lookup]
    by_cases hc : (claimBatch batchSize tbl).2.contains h = true
    · rw [if_pos hc]
    · rw [if_neg hc]; exact h1
  have hiff : ∀ h, syncLookup (claimBatch batchSize tbl).1 h ≠ syncLookup tbl h ↔
      h ∈ (claimBatch batchSize tbl).2 := by
    intro h
    constructor
    · intro hne
      by_contra hnm
      have hc : (claimBatch batchSize tbl).2.contains h = false := by
        rw [Bool.eq_false_iff]
        intro hc2
        exact hnm (List.elem_iff.mp hc2)
      rw [claimBatch_lookup, hc] at hne
      simp at hne
    · intro hm
      have h2 := hmem h hm
      rw [h2.1, h2.2]
      simp
  have hinsert : ∀ hashes tbl2, insert_sync_status hashes tbl = .ok tbl2 →
      ∀ h, syncLookup tbl h = some 1 → syncLookup tbl2 h = some 1 := by
    intro hashes tbl2 hok h h1
    unfold insert_sync_status at hok
    split_ifs at hok
    cases hok
    unfold syncLookup at h1 ⊢
    rw [List.find?_append]
    obtain ⟨r, hfind, hst⟩ := Option.map_eq_some'.mp h1
    rw [hfind]
    simp [hst]
  have hcycle : ∀ f extract db, db.sync = tbl →
      ∀ h, syncLookup tbl h = some 1 →
        syncLookup (runCycle f extract batchSize db).1.sync h = some 1 := by
    intro f extract db hdb h h1
    unfold runCycle
    cases htx : runCycleTx f extract batchSize db with
    | error e =>
      show syncLookup db.sync h = some 1
      rw [hdb]; exact h1
    | ok p =>
      show syncLookup p.1.sync h = some 1
      have hp := runCycleTx_ok f extract batchSize db p htx
      rw [hp.1, hdb]
      exact hmono h h1
  exact ⟨hlen, hmem, hiff, hmono, hinsert, hcycle⟩

/-- Witness for the C2 theorem: claiming with limit 1 over a concrete two-row table
turns the Pending row Indexed. -/
theorem claimBatch_contract_witness :
    syncLookup (claimBatch 1 [⟨[1], 0⟩, ⟨[2], 1⟩]).1 [1] = some 1 :=
  ((claimBatch_contract 1 [⟨[1], 0⟩, ⟨[2], 1⟩] (by decide)).2.1 [1] (by decide)).2

lemma insertLogOrIgnore_mono (tbl : List Log) (x l : Log)
    (h : tbl.any (fun r => natKey r == natKey l) = true) :
    (insertLogOrIgnore tbl x).any (fun r => natKey r == natKey l) = true := by
  unfold insertLogOrIgnore
  split_ifs with hc
  · exact h
  · rw [List.any_append, h, Bool.true_or]

lemma insertLogOrIgnore_self (tbl : List Log) (l : Log) :
    (insertLogOrIgnore tbl l).any (fun r => natKey r == natKey l) = true := by
  unfold insertLogOrIgnore
  split_ifs with hc
  · exact hc
  · rw [List.any_append]
    simp

lemma insertLogs_mono (ls : List Log) : ∀ (tbl : List Log) (l : Log),
    tbl.any (fun r => natKey r == natKey l) = true →
    (insertLogs tbl ls).any (fun r => natKey r == natKey l) = true := by
  induction ls with
  | nil => intro tbl l h; exact h
  | cons x t ih =>
    intro tbl l h
    show (insertLogs (insertLogOrIgnore tbl x) t).any
      (fun r => natKey r == natKey l) = true
    exact ih _ l (insertLogOrIgnore_mono tbl x l h)

lemma insertLogs_all_present (ls : List Log) : ∀ (tbl : List Log), ∀ l ∈ ls,
    (insertLogs tbl ls).any (fun r => natKey r == natKey l) = true := by
  induction ls with
  | nil => intro tbl l hl; cases hl
  | cons x t ih =>
    intro tbl l hl
    show (insertLogs (insertLogOrIgnore tbl x) t).any
      (fun r => natKey r == natKey l) = true
    rcases List.mem_cons.mp hl with rfl | hl2
    · exact insertLogs_mono t _ l (insertLogOrIgnore_self tbl l)
    · exact ih _ l hl2

lemma insertLogs_noop (ls : List Log) : ∀ (tbl : List Log),
    (∀ l ∈ ls, tbl.any (fun r => natKey r == natKey l) = true) →
    insertLogs tbl ls = tbl := by
  induction ls with
  | nil => intro tbl _; rfl
  | cons x t ih =>
    intro tbl h
    show insertLogs (insertLogOrIgnore tbl x) t = tbl
    have hx : insertLogOrIgnore tbl x = tbl := by
      unfold insertLogOrIgnore
      rw [if_pos (h x (List.mem_cons_self x t))]
    rw [hx]
    exact ih tbl (fun l hl => h l (List.mem_cons_of_mem x hl))

lemma insertLogOrIgnore_nodupKeys (tbl : List Log) (l : Log)
    (hnd : (tbl.map natKey).Nodup) :
    ((insertLogOrIgnore tbl l).map natKey).Nodup := by
  unfold insertLogOrIgnore
  split_ifs with hc
  · exact hnd
  · rw [List.map_append, List.nodup_append]
    refine ⟨hnd, by simp, ?_⟩
    intro k hk hkmem
    rw [List.mem_map] at hk
    obtain ⟨r, hr, rfl⟩ := hk
    simp only [List.map_cons, List.map_nil, List.mem_singleton] at hkmem
    apply hc
    rw [List.any_eq_true]
    exact ⟨r, hr, by simp [hkmem]⟩

lemma insertLogs_nodupKeys (ls : List Log) : ∀ (tbl : List Log),
    (tbl.map natKey).Nodup → ((insertLogs tbl ls).map natKey).Nodup := by
  induction ls with
  | nil => intro tbl h; exact h
  | cons x t ih =>
    intro tbl h
    show ((insertLogs (insertLogOrIgnore tbl x) t).map natKey).Nodup
    exact ih _ (insertLogOrIgnore_nodupKeys tbl x h)

/-- C5: re-inserting the same set of log records with INSERT OR IGNORE leaves the logs
table exactly as after the first insert — duplicates are silently discarded, no error
is raised (the insert loop is a total function), and no duplicate natural keys ever
appear. -/
theorem logs_insert_idempotent (tbl ls : List Log) :
    insertLogs (insertLogs tbl ls) ls = insertLogs tbl ls ∧
      ((tbl.map natKey).Nodup → ((insertLogs tbl ls).map natKey).Nodup) :=
  ⟨insertLogs_noop ls (insertLogs tbl ls)
      (fun l hl => insertLogs_all_present ls tbl l hl),
    fun h => insertLogs_nodupKeys ls tbl h⟩

/-- Witness for the C5 theorem: re-inserting a concrete record set that even contains
an internal duplicate changes nothing, and the natural keys stay unique. -/
theorem logs_insert_idempotent_witness :
    insertLogs (insertLogs []
        [⟨0, [1], [2], [3], [4], [5], 0, 0, [9]⟩,
          ⟨0, [1], [2], [3], [4], [5], 0, 0, [9]⟩])
        [⟨0, [1], [2], [3], [4], [5], 0, 0, [9]⟩,
          ⟨0, [1], [2], [3], [4], [5], 0, 0, [9]⟩] =
      insertLogs []
        [⟨0, [1], [2], [3], [4], [5], 0, 0, [9]⟩,
          ⟨0, [1], [2], [3], [4], [5], 0, 0, [9]⟩] ∧
      ((insertLogs ([] : List Log)
        [⟨0, [1], [2], [3], [4], [5], 0, 0, [9]⟩,
          ⟨0, [1], [2], [3], [4], [5], 0, 0, [9]⟩]).map natKey).Nodup :=
  ⟨(logs_insert_idempotent [] _).1, (logs_insert_idempotent [] _).2 (by decide)⟩

/-- C1: whenever an indexing cycle fails after its claim — the extraction handoff, a
log insert, or the commit itself — the transaction is not committed: the persisted
database is exactly as before the cycle, every row that was Pending is still Pending,
and no log row from the batch is visible. -/
theorem cycle_rollback (f : Failures) (extract : List Bytes → List Log) (n : Nat)
    (db : DB) (hfail : (runCycle f extract n db).2 = none) :
    (runCycle f extract n db).1 = db ∧
      (∀ h, syncLookup db.sync h = some 0 →
        syncLookup (runCycle f extract n db).1.sync h = some 0) ∧
      (runCycle f extract n db).1.logs = db.logs := by
  have hdb : (runCycle f extract n db).1 = db := by
    unfold runCycle at hfail ⊢
    cases htx : runCycleTx f extract n db with
    | error e => rfl
    | ok p =>
      rw [htx] at hfail
      simp at hfail
  refine ⟨hdb, ?_, ?_⟩
  · intro h h0; rw [hdb]; exact h0
  · rw [hdb]

/-- Witness for the C1 theorem: a concrete cycle whose commit fails leaves the
database untouched, its claimed row still Pending. -/
theorem cycle_rollback_witness :
    (runCycle ⟨false, false, none, true⟩ (fun _ => []) 1
      ⟨[⟨[1], 0⟩], []⟩).1 = ⟨[⟨[1], 0⟩], []⟩ :=
  (cycle_rollback ⟨false, false, none, true⟩ (fun _ => []) 1 ⟨[⟨[1], 0⟩], []⟩ rfl).1

lemma insertLogsTx_none (tbl ls : List Log) :
    insertLogsTx none tbl ls = .ok (insertLogs tbl ls) := by
  induction ls generalizing tbl with
  | nil => rfl
  | cons x t ih =>
    show insertLogsTx none (insertLogOrIgnore tbl x) t =
      Except.ok (insertLogs (insertLogOrIgnore tbl x) t)
    exact ih _

/-- C9: when the receipts fetch for a block fails, extraction treats the block as
having zero receipts — it emits no records for it and raises no error — and a
failure-free cycle over the batch still commits, marking every claimed hash, that
block included, as Indexed. -/
theorem receipts_failure_treated_as_empty (client : LedgerClient)
    (overrides : OverrideHandle) (h : Bytes) (n : Nat) (db : DB)
    (hrec : ((lookupHandler overrides.schemas
        (onchain_storage_schema client h)).getD
          overrides.fallback).current_receipts h = none) :
    extractBlock client overrides h = [] ∧
      (runCycle noFailures (spawn_logs_task_inner client overrides) n db).2 =
        some (claimBatch n db.sync).2 ∧
      (h ∈ (claimBatch n db.sync).2 →
        syncLookup
          (runCycle noFailures
            (spawn_logs_task_inner client overrides) n db).1.sync h = some 1) := by
  have hempty : extractBlock client overrides h = [] := by
    simp only [extractBlock]
    rw [hrec]
    rfl
  have hcommit : runCycleTx noFailures (spawn_logs_task_inner client overrides) n db =
      .ok (⟨(claimBatch n db.sync).1,
        insertLogs db.logs
          (spawn_logs_task_inner client overrides (claimBatch n db.sync).2)⟩,
        (claimBatch n db.sync).2) := by
    simp [runCycleTx, noFailures, insertLogsTx_none]
  refine ⟨hempty, ?_, ?_⟩
  · unfold runCycle
    rw [hcommit]
  · intro hm
    unfold runCycle
    rw [hcommit]
    show syncLookup (claimBatch n db.sync).1 h = some 1
    rw [claimBatch_lookup, if_pos (List.elem_iff.mpr hm)]

/-- Witness for the C9 theorem: a concrete fallback handler whose receipts fetch fails
produces no records, and a clean cycle still marks the claimed block Indexed. -/
theorem receipts_failure_treated_as_empty_witness :
    extractBlock ⟨fun _ => some 3, fun _ => .err⟩ ⟨[], ⟨fun _ => none⟩⟩ [1] = [] ∧
      syncLookup
        (runCycle noFailures
          (spawn_logs_task_inner ⟨fun _ => some 3, fun _ => .err⟩
            ⟨[], ⟨fun _ => none⟩⟩) 1 ⟨[⟨[1], 0⟩], []⟩).1.sync [1] = some 1 :=
  ⟨(receipts_failure_treated_as_empty ⟨fun _ => some 3, fun _ => .err⟩
      ⟨[], ⟨fun _ => none⟩⟩ [1] 1 ⟨[⟨[1], 0⟩], []⟩ rfl).1,
    (receipts_failure_treated_as_empty ⟨fun _ => some 3, fun _ => .err⟩
      ⟨[], ⟨fun _ => none⟩⟩ [1] 1 ⟨[⟨[1], 0⟩], []⟩ rfl).2.2 (by decide)⟩
